import Mathlib

/-!
Verification of the bucket-sorted big-sieving-prime engine (`EratBig`) of
primesieve, shallowly embedded from `src/soe/EratBig.cpp`, together with a
model of the `PrimeSieve` facade of `src/soe/PrimeSieve.h`.

Machine integers (`uint_t`) are modelled as `Nat`: all quantities involved
(byte offsets, segment indices, bucket counts) stay far below 2^32 in the
program, and none of the modelled operations relies on wrap-around.
Pointers to buckets are modelled by value: a bucket is the list of triples
it holds, a bucket list (`Bucket*` chain in C++) is a `List Bucket` whose
head is the bucket `lists_[i]` points at, the free list `stock_` is the
number of empty buckets on it, and the slab registry `pointers_` is the
number of slabs allocated.
-/

/-- Sieving prime record: the triple (sievingPrime, multipleIndex, wheelIndex)
of `WheelFactorization.h` (the spec's "sieving prime record", §3). -/
structure WheelPrime where
  sievingPrime : Nat
  multipleIndex : Nat
  wheelIndex : Nat
deriving DecidableEq

/-- Modelled from the spec: buckets are fixed-capacity arrays of triples
("buckets of 1024 triples", §5); `WheelFactorization.h` is not under `src/`. -/
def BUCKET_SIZE : Nat := 1024

/-- Modelled from the spec: slab granularity of the bucket pool
("e.g. 128 buckets per allocation", §3); the constant's definition is not
under `src/`. -/
def BUCKETS_PER_ALLOC : Nat := 128

/-- A bucket, by value: the triples it holds, in insertion order. -/
abbrev Bucket := List WheelPrime

/-- Modelled from the spec: `Bucket::store` of `WheelFactorization.h` (not
under `src/`) writes the triple into the bucket's next free slot and reports
whether room remains; a `false` return makes the caller push a fresh head
bucket (spec §4.6 storeSievingPrime). -/
def Bucket.store (b : Bucket) (wp : WheelPrime) : Bucket × Bool :=
  (b ++ [wp], decide (b.length + 1 < BUCKET_SIZE))

/-- Modelled from the spec (§4.2): a wheel table entry per wheel index, with
the bit mask to clear, the byte-stride factor and correction added to the
multiple index, and the next wheel index. `WheelFactorization.h` is not under
`src/`. Entries are total functions of the wheel index. -/
structure Wheel where
  mask : Nat → Nat
  factor : Nat → Nat
  correct : Nat → Nat
  next : Nat → Nat

/-- Modelled from the spec (§4.2): `unsetBit` clears the wheel-selected bit of
the sieve byte at `multipleIndex` and advances the triple:
`multipleIndex += sievingPrime * factor + correct; wheelIndex = next`.
Clearing bit mask `k` of byte `b` (`b &= ~k` in C++) is `b ^^^ (b &&& k)`. -/
def unsetBit (W : Wheel) (sieve : List Nat) (sievingPrime multipleIndex wheelIndex : Nat) :
    List Nat × Nat × Nat :=
  let b := sieve.getD multipleIndex 0
  (sieve.set multipleIndex (b ^^^ (b &&& W.mask wheelIndex)),
   multipleIndex + sievingPrime * W.factor wheelIndex + W.correct wheelIndex,
   W.next wheelIndex)

/-- State of the `EratBig` engine (`EratBig.h`/`EratBig.cpp`). -/
structure EratBig where
  log2SieveSize : Nat
  moduloSieveSize : Nat
  lists : List (List Bucket)
  stock : Nat
  pointers : Nat
deriving DecidableEq

/-- `EratBig::pushBucket` (EratBig.cpp lines 89-102): move an empty bucket
from the stock to the front of `lists_[segment]`; when the stock is empty a
slab of `BUCKETS_PER_ALLOC` buckets is allocated first and recorded. -/
def EratBig.pushBucket (s : EratBig) (segment : Nat) : EratBig :=
  let s' := if s.stock = 0 then
      { s with stock := BUCKETS_PER_ALLOC, pointers := s.pointers + 1 }
    else s
  { s' with stock := s'.stock - 1,
            lists := s'.lists.set segment ([] :: s'.lists.getD segment []) }

/-- `EratBig::storeSievingPrime` (EratBig.cpp lines 107-116): route the triple
to the bucket list of the segment its multiple index falls in. The C++
dereferences `lists_[segment]` unconditionally; a null head (empty chain in
this model, shown unreachable in the claims below) leaves the state
unchanged. -/
def EratBig.storeSievingPrime (s : EratBig) (sievingPrime multipleIndex wheelIndex : Nat) :
    EratBig :=
  let segment := multipleIndex >>> s.log2SieveSize
  let m := multipleIndex &&& s.moduloSieveSize
  match s.lists.getD segment [] with
  | [] => s
  | head :: rest =>
    let r := head.store ⟨sievingPrime, m, wheelIndex⟩
    let s' := { s with lists := s.lists.set segment (r.1 :: rest) }
    if r.2 then s' else s'.pushBucket segment

/-- Modelled from the spec: `isPowerOf2` of `imath.h` is not under `src/`;
the constructor must reject sieve sizes that are not powers of two (§7). -/
def isPowerOf2 (n : Nat) : Bool :=
  n != 0 && 2 ^ Nat.log2 n == n

/-- Modelled from the spec: `ilog2` of `imath.h` (floor base-2 logarithm) is
not under `src/`. -/
def ilog2 (n : Nat) : Nat := Nat.log2 n

/-- `SieveOfEratosthenes::NUMBERS_PER_BYTE`: 30 numbers per sieve byte
(spec §3, candidate encoding). -/
def NUMBERS_PER_BYTE : Nat := 30

/-- `EratBig::setListsSize` (EratBig.cpp lines 69-77): the number of bucket
list heads, computed from the largest sieving prime (`sqrtStop / 30`) and the
largest wheel stride (`getMaxFactor()`), both passed here as arguments. -/
def setListsSizeLen (sieveSize sqrtStop maxFactor : Nat) : Nat :=
  let maxSievingPrime := sqrtStop / NUMBERS_PER_BYTE
  let maxNextMultiple := maxSievingPrime * maxFactor + maxFactor
  let maxMultipleIndex := sieveSize - 1 + maxNextMultiple
  let maxSegmentCount := maxMultipleIndex >>> ilog2 sieveSize
  maxSegmentCount + 1

/-- `EratBig::init` (EratBig.cpp lines 79-83): push one empty bucket onto
each bucket list. -/
def EratBig.init (s : EratBig) : EratBig :=
  (List.range s.lists.length).foldl (fun t i => t.pushBucket i) s

/-- `EratBig::EratBig` (EratBig.cpp lines 50-61): reject a non-power-of-two
sieve size before sizing the lists or allocating any bucket; otherwise size
the lists and initialize them. -/
def mkEratBig (sieveSize sqrtStop maxFactor : Nat) : Except String EratBig :=
  if !isPowerOf2 sieveSize then
    Except.error "EratBig: sieveSize must be a power of 2 (2^n)."
  else
    Except.ok (EratBig.init
      { log2SieveSize := ilog2 sieveSize
        moduloSieveSize := sieveSize - 1
        lists := List.replicate (setListsSizeLen sieveSize sqrtStop maxFactor) []
        stock := 0
        pointers := 0 })

/-- `EratBig::~EratBig` (EratBig.cpp lines 63-67): `delete[]` exactly the
slabs recorded in the `pointers_` registry; the result is the number of slabs
released. -/
def EratBig.destruct (s : EratBig) : Nat := s.pointers

/-- Returning a drained bucket to the free list increments the stock count
(`old->setNext(stock_); stock_ = old` in EratBig.cpp lines 139-140). -/
def bumpStock (s : EratBig) : EratBig :=
  { log2SieveSize := s.log2SieveSize
    moduloSieveSize := s.moduloSieveSize
    lists := s.lists
    stock := s.stock + 1
    pointers := s.pointers }

/-- The detach-and-refill step at the top of each outer crossOff iteration
(EratBig.cpp lines 130-132): `bucket = list; list = NULL; pushBucket(0)`. -/
def detachPush (s : EratBig) : EratBig :=
  EratBig.pushBucket { s with lists := (s.lists.set 0 ([] : List Bucket)) } 0

/-- One wheel step of one triple, as performed by the scalar tail of
`EratBig::crossOff(Bucket&, uint8_t*)` (EratBig.cpp lines 189-198): clear the
bit, advance the triple, route it to the list of its new segment. -/
def EratBig.stepPrime (W : Wheel) (p : EratBig × List Nat) (wp : WheelPrime) :
    EratBig × List Nat :=
  let u := unsetBit W p.2 wp.sievingPrime wp.multipleIndex wp.wheelIndex
  (p.1.storeSievingPrime wp.sievingPrime u.2.1 u.2.2, u.1)

/-- The naive per-bucket loop: one triple at a time, in order. -/
def EratBig.crossOffBucketNaive (W : Wheel) (b : Bucket) (p : EratBig × List Nat) :
    EratBig × List Nat :=
  b.foldl (EratBig.stepPrime W) p

/-- `EratBig::crossOff(Bucket&, uint8_t*)` (EratBig.cpp lines 158-199): the
unrolled per-bucket loop, two triples per iteration (both bits cleared before
both stores, as in the source), with any odd tail triple handled scalarly. -/
def EratBig.crossOffBucket (W : Wheel) : Bucket → EratBig × List Nat → EratBig × List Nat
  | wp0 :: wp1 :: rest, p =>
    let u0 := unsetBit W p.2 wp0.sievingPrime wp0.multipleIndex wp0.wheelIndex
    let u1 := unsetBit W u0.1 wp1.sievingPrime wp1.multipleIndex wp1.wheelIndex
    let s1 := p.1.storeSievingPrime wp0.sievingPrime u0.2.1 u0.2.2
    let s2 := s1.storeSievingPrime wp1.sievingPrime u1.2.1 u1.2.2
    EratBig.crossOffBucket W rest (s2, u1.1)
  | [wp], p =>
    let u := unsetBit W p.2 wp.sievingPrime wp.multipleIndex wp.wheelIndex
    (p.1.storeSievingPrime wp.sievingPrime u.2.1 u.2.2, u.1)
  | [], p => p

/-- Exit condition of the outer loop of `EratBig::crossOff(uint8_t*)`
(EratBig.cpp line 129): the loop runs `while (list->hasNext() ||
!list->empty())`, i.e. stops exactly when the chain is one empty bucket. -/
def chainDone : List Bucket → Bool
  | [b] => b.isEmpty
  | _ => false

/-- The inner do-while of `EratBig::crossOff(uint8_t*)` (EratBig.cpp lines
133-141): process each bucket of the detached chain in order, then reset it
and return it to the stock. -/
def EratBig.processChain (W : Wheel) : List Bucket → EratBig × List Nat → EratBig × List Nat
  | [], p => p
  | b :: rest, p =>
    let q := EratBig.crossOffBucket W b p
    EratBig.processChain W rest ({ q.1 with stock := q.1.stock + 1 }, q.2)

/-- The outer while loop of `EratBig::crossOff(uint8_t*)` (EratBig.cpp lines
129-142): while `lists_[0]` is not a single empty bucket, detach its chain,
push a fresh empty bucket onto `lists_[0]`, and process the chain. `fuel`
bounds the number of iterations; the termination claim shows a computable
bound after which the result is stable. -/
def EratBig.crossOffLoop (W : Wheel) : Nat → EratBig × List Nat → EratBig × List Nat
  | 0, p => p
  | fuel + 1, p =>
    let chain := p.1.lists.getD 0 []
    if chainDone chain then p
    else
      let s1 := { p.1 with lists := p.1.lists.set 0 ([] : List Bucket) }
      let s2 := s1.pushBucket 0
      EratBig.crossOffLoop W fuel (EratBig.processChain W chain (s2, p.2))

/-- `EratBig::crossOff(uint8_t*)` (EratBig.cpp lines 122-149): drain
`lists_[0]`, then rotate: `tmp = lists_[0]`, copy `lists_[1..]` down one
slot, and place `tmp` in the tail slot. -/
def EratBig.crossOff (W : Wheel) (fuel : Nat) (s : EratBig) (sieve : List Nat) :
    EratBig × List Nat :=
  let p := EratBig.crossOffLoop W fuel (s, sieve)
  ({ p.1 with lists := p.1.lists.drop 1 ++ [p.1.lists.getD 0 []] }, p.2)

/-- Modelled from the spec: `PrimeSieve.cpp` is not under `src/`; per the
spec, `sieve(start, stop)` records the bounds, resets the count accumulators
to zero, and accumulates the counts produced by the (deterministic) sieving
computation, abstracted as a function of `(start, stop)`. -/
structure PrimeSieve where
  start : Nat
  stop : Nat
  counts : List Nat
deriving DecidableEq

/-- Modelled from the spec: `PrimeSieve::reset` zeroes the prime and
k-tuplet count accumulators (7 counters: primes, twins, ..., septuplets). -/
def PrimeSieve.reset (ps : PrimeSieve) : PrimeSieve :=
  { ps with counts := List.replicate 7 0 }

/-- Modelled from the spec: one sieving pass adds the counts found in
`[start, stop]` (given by the abstract deterministic count function `f`)
into the accumulators. -/
def PrimeSieve.accumulate (f : Nat → Nat → List Nat) (ps : PrimeSieve) : PrimeSieve :=
  { ps with counts := List.zipWith (· + ·) ps.counts (f ps.start ps.stop) }

/-- Modelled from the spec: `PrimeSieve::sieve(start, stop)` (PrimeSieve.h
line 88): set the bounds, reset, then sieve and accumulate. -/
def PrimeSieve.sieveRange (f : Nat → Nat → List Nat) (ps : PrimeSieve)
    (start stop : Nat) : PrimeSieve :=
  PrimeSieve.accumulate f (PrimeSieve.reset { ps with start := start, stop := stop })

/-- Modelled from the spec: `PrimeSieve::countPrimes(start, stop)`
(PrimeSieve.h line 106): sieve the interval and return the prime count. -/
def PrimeSieve.countPrimes (f : Nat → Nat → List Nat) (ps : PrimeSieve)
    (start stop : Nat) : Nat × PrimeSieve :=
  let ps' := ps.sieveRange f start stop
  (ps'.counts.getD 0 0, ps')

/-- The sieve size in bytes determined by the stored `log2SieveSize_`
(`soe.getSieveSize()` for the power-of-two sizes the constructor accepts). -/
def EratBig.sieveBytes (s : EratBig) : Nat := 2 ^ s.log2SieveSize

/-- Verification measure: total distance of the triples of a bucket chain to
the end of the current segment (`S - multipleIndex` summed over the chain). -/
def chainWeight (S : Nat) (c : List Bucket) : Nat :=
  (c.flatten.map (fun wp => S - wp.multipleIndex)).sum

/-- Verification measure: `chainWeight` after one wheel step has consumed at
least one byte from each triple. -/
def chainSlack (S : Nat) (c : List Bucket) : Nat :=
  (c.flatten.map (fun wp => S - wp.multipleIndex - 1)).sum

/-- Verification measure: the slack of a single bucket. -/
def bucketSlack (S : Nat) (b : Bucket) : Nat :=
  (b.map (fun wp => S - wp.multipleIndex - 1)).sum

/-- Verification measure for the outer crossOff loop: the weight of the
current-segment chain `lists_[0]`. -/
def EratBig.weight0 (s : EratBig) : Nat :=
  chainWeight s.sieveBytes (s.lists.getD 0 [])

/-- Safety predicate of claim C9: the bucket list array is non-empty and
every bucket list head is a valid (non-null) bucket. -/
def EratBig.NonNull (s : EratBig) : Prop :=
  0 < s.lists.length ∧ ∀ c ∈ s.lists, c ≠ []

/-- The state invariant of the `EratBig` engine maintained by its operations:
the stored modulo mask matches the sieve size, the bucket list array is
non-empty, every list head is non-null, every non-head bucket of a chain is
non-empty (it was pushed behind a freshly filled head), and every stored
triple has an in-segment multiple index and a non-zero sieving prime (the
engine only holds primes `> sieveSize * 30 / 2 > 30`). -/
def EratBig.Inv (s : EratBig) : Prop :=
  s.moduloSieveSize = s.sieveBytes - 1 ∧
  0 < s.lists.length ∧
  (∀ c ∈ s.lists, c ≠ []) ∧
  (∀ c ∈ s.lists, ∀ b ∈ c.tail, b ≠ []) ∧
  (∀ c ∈ s.lists, ∀ b ∈ c, ∀ wp ∈ b,
    wp.multipleIndex < s.sieveBytes ∧ 1 ≤ wp.sievingPrime)

/-- Resource accounting of claim C7: the number of buckets reachable from the
bucket lists and the free list. -/
def EratBig.bucketCount (s : EratBig) : Nat :=
  (s.lists.map List.length).sum + s.stock

/-- Resource conservation of claim C7: every bucket of every allocated slab
is reachable from the bucket lists or the `stock_` free list — no bucket is
ever individually deallocated. -/
def EratBig.Conserv (s : EratBig) : Prop :=
  s.bucketCount = s.pointers * BUCKETS_PER_ALLOC

/-! ### List helper lemmas -/

theorem getD_set_self {α : Type} (l : List α) (i : Nat) (a d : α) (h : i < l.length) :
    (l.set i a).getD i d = a := by
  simp [List.getD_eq_getElem?_getD, List.getElem?_set_eq_of_lt a h]

theorem getD_set_ne {α : Type} (l : List α) (i j : Nat) (a d : α) (h : i ≠ j) :
    (l.set i a).getD j d = l.getD j d := by
  simp [List.getD_eq_getElem?_getD, List.getElem?_set_ne h]

theorem getD_mem {α : Type} (l : List α) (i : Nat) (d : α) (h : i < l.length) :
    l.getD i d ∈ l := by
  simp only [List.getD_eq_getElem?_getD, List.getElem?_eq_getElem h, Option.getD_some]
  exact List.getElem_mem h

theorem getD_oob {α : Type} (l : List α) (i : Nat) (d : α) (h : l.length ≤ i) :
    l.getD i d = d := by
  simp [List.getD_eq_getElem?_getD, List.getElem?_eq_none h]

theorem pos_length_of_getD_ne {α : Type} (l : List α) (i : Nat) (d : α)
    (h : l.getD i d ≠ d) : i < l.length := by
  by_contra hc
  exact h (getD_oob l i d (Nat.le_of_not_lt hc))

theorem getD_append_left {α : Type} (l₁ l₂ : List α) (i : Nat) (d : α) (h : i < l₁.length) :
    (l₁ ++ l₂).getD i d = l₁.getD i d := by
  simp [List.getD_eq_getElem?_getD, List.getElem?_append_left h]

theorem getD_append_length {α : Type} (l : List α) (x d : α) :
    (l ++ [x]).getD l.length d = x := by
  simp [List.getD_eq_getElem?_getD, List.getElem?_append_right (Nat.le_refl l.length)]

theorem chainDone_iff (c : List Bucket) : chainDone c = true ↔ c = [([] : Bucket)] := by
  match c with
  | [] => simp [chainDone]
  | [b] => simp [chainDone, List.isEmpty_iff]
  | a :: b :: r => simp [chainDone]

/-! ### Frame lemmas: the operations do not change the sieve-size fields or
the length of the bucket list array -/

theorem pushBucket_log2 (s : EratBig) (i : Nat) :
    (s.pushBucket i).log2SieveSize = s.log2SieveSize := by
  unfold EratBig.pushBucket; split <;> rfl

theorem pushBucket_modulo (s : EratBig) (i : Nat) :
    (s.pushBucket i).moduloSieveSize = s.moduloSieveSize := by
  unfold EratBig.pushBucket; split <;> rfl

theorem pushBucket_length (s : EratBig) (i : Nat) :
    (s.pushBucket i).lists.length = s.lists.length := by
  unfold EratBig.pushBucket; split <;> simp

theorem pushBucket_pointers (s : EratBig) (i : Nat) :
    (s.pushBucket i).pointers = if s.stock = 0 then s.pointers + 1 else s.pointers := by
  unfold EratBig.pushBucket; split <;> simp_all

theorem pushBucket_lists (s : EratBig) (i : Nat) :
    (s.pushBucket i).lists = s.lists.set i ([] :: s.lists.getD i []) := by
  unfold EratBig.pushBucket; split <;> rfl

theorem store_log2 (s : EratBig) (p m w : Nat) :
    (s.storeSievingPrime p m w).log2SieveSize = s.log2SieveSize := by
  rcases h : s.lists.getD (m >>> s.log2SieveSize) [] with _ | ⟨head, rest⟩
  · simp only [EratBig.storeSievingPrime, h]
  · simp only [EratBig.storeSievingPrime, h]
    split
    · rfl
    · exact pushBucket_log2 _ _

theorem store_modulo (s : EratBig) (p m w : Nat) :
    (s.storeSievingPrime p m w).moduloSieveSize = s.moduloSieveSize := by
  rcases h : s.lists.getD (m >>> s.log2SieveSize) [] with _ | ⟨head, rest⟩
  · simp only [EratBig.storeSievingPrime, h]
  · simp only [EratBig.storeSievingPrime, h]
    split
    · rfl
    · exact pushBucket_modulo _ _

theorem store_length (s : EratBig) (p m w : Nat) :
    (s.storeSievingPrime p m w).lists.length = s.lists.length := by
  rcases h : s.lists.getD (m >>> s.log2SieveSize) [] with _ | ⟨head, rest⟩
  · simp only [EratBig.storeSievingPrime, h]
  · simp only [EratBig.storeSievingPrime, h]
    split
    · simp
    · rw [pushBucket_length]; simp

theorem store_sieveBytes (s : EratBig) (p m w : Nat) :
    (s.storeSievingPrime p m w).sieveBytes = s.sieveBytes := by
  unfold EratBig.sieveBytes; rw [store_log2]

/-! ### The unrolled bucket loop equals the naive one-triple-at-a-time fold -/

theorem crossOffBucket_eq_foldl (W : Wheel) :
    ∀ (b : Bucket) (p : EratBig × List Nat),
      EratBig.crossOffBucket W b p = b.foldl (EratBig.stepPrime W) p := by
  have H : ∀ (n : Nat) (b : Bucket), b.length ≤ n → ∀ p,
      EratBig.crossOffBucket W b p = b.foldl (EratBig.stepPrime W) p := by
    intro n
    induction n with
    | zero =>
      intro b hb p
      have hB : b = [] := List.eq_nil_of_length_eq_zero (Nat.le_zero.mp hb)
      subst hB; rfl
    | succ n ih =>
      intro b hb p
      rcases b with _ | ⟨wp0, b⟩
      · rfl
      rcases b with _ | ⟨wp1, rest⟩
      · rfl
      have hr : rest.length ≤ n := by
        simp only [List.length_cons] at hb; omega
      simp only [EratBig.crossOffBucket, List.foldl, EratBig.stepPrime]
      exact ih rest hr _
  intro b p
  exact H b.length b (Nat.le_refl _) p

/-- Preservation of a state predicate through the per-bucket fold, assuming
preservation by `storeSievingPrime` for triples satisfying `Q`. -/
theorem foldl_stepPrime_pres (W : Wheel) (P : EratBig → Prop) (Q : WheelPrime → Prop)
    (h : ∀ s p m w, P s → (∃ wp, Q wp ∧ wp.sievingPrime = p) →
      P (s.storeSievingPrime p m w)) :
    ∀ (b : Bucket) (p : EratBig × List Nat), P p.1 → (∀ wp ∈ b, Q wp) →
      P ((b.foldl (EratBig.stepPrime W) p).1) := by
  intro b
  induction b with
  | nil => intro p hp _; exact hp
  | cons wp b ih =>
    intro p hp hq
    simp only [List.foldl]
    refine ih _ ?_ (fun x hx => hq x (List.mem_cons_of_mem _ hx))
    exact h _ _ _ _ hp ⟨wp, hq wp (List.mem_cons_self _ _), rfl⟩

theorem crossOffBucket_pres (W : Wheel) (P : EratBig → Prop) (Q : WheelPrime → Prop)
    (h : ∀ s p m w, P s → (∃ wp, Q wp ∧ wp.sievingPrime = p) →
      P (s.storeSievingPrime p m w))
    (b : Bucket) (p : EratBig × List Nat) (hp : P p.1) (hq : ∀ wp ∈ b, Q wp) :
    P ((EratBig.crossOffBucket W b p).1) := by
  rw [crossOffBucket_eq_foldl]
  exact foldl_stepPrime_pres W P Q h b p hp hq

theorem processChain_pres (W : Wheel) (P : EratBig → Prop) (Q : WheelPrime → Prop)
    (h : ∀ s p m w, P s → (∃ wp, Q wp ∧ wp.sievingPrime = p) →
      P (s.storeSievingPrime p m w))
    (hstock : ∀ s, P s → P { s with stock := s.stock + 1 }) :
    ∀ (c : List Bucket) (p : EratBig × List Nat), P p.1 →
      (∀ b ∈ c, ∀ wp ∈ b, Q wp) → P ((EratBig.processChain W c p).1) := by
  intro c
  induction c with
  | nil => intro p hp _; exact hp
  | cons b c ih =>
    intro p hp hq
    simp only [EratBig.processChain]
    refine ih _ ?_ (fun x hx => hq x (List.mem_cons_of_mem _ hx))
    exact hstock _ (crossOffBucket_pres W P Q h b p hp (hq b (List.mem_cons_self _ _)))

/-! ### Frame lemmas continued: through the bucket, chain and loop functions -/

theorem crossOffBucket_log2 (W : Wheel) (b : Bucket) (p : EratBig × List Nat) :
    ((EratBig.crossOffBucket W b p).1).log2SieveSize = p.1.log2SieveSize := by
  exact crossOffBucket_pres W (fun t => t.log2SieveSize = p.1.log2SieveSize)
    (fun _ => True) (fun s q m w hs _ => (store_log2 s q m w).trans hs) b p rfl
    (fun _ _ => trivial)

theorem crossOffBucket_modulo (W : Wheel) (b : Bucket) (p : EratBig × List Nat) :
    ((EratBig.crossOffBucket W b p).1).moduloSieveSize = p.1.moduloSieveSize := by
  exact crossOffBucket_pres W (fun t => t.moduloSieveSize = p.1.moduloSieveSize)
    (fun _ => True) (fun s q m w hs _ => (store_modulo s q m w).trans hs) b p rfl
    (fun _ _ => trivial)

theorem crossOffBucket_length (W : Wheel) (b : Bucket) (p : EratBig × List Nat) :
    ((EratBig.crossOffBucket W b p).1).lists.length = p.1.lists.length := by
  exact crossOffBucket_pres W (fun t => t.lists.length = p.1.lists.length)
    (fun _ => True) (fun s q m w hs _ => (store_length s q m w).trans hs) b p rfl
    (fun _ _ => trivial)

theorem processChain_log2 (W : Wheel) (c : List Bucket) (p : EratBig × List Nat) :
    ((EratBig.processChain W c p).1).log2SieveSize = p.1.log2SieveSize := by
  exact processChain_pres W (fun t => t.log2SieveSize = p.1.log2SieveSize)
    (fun _ => True) (fun s q m w hs _ => (store_log2 s q m w).trans hs)
    (fun s hs => hs) c p rfl (fun _ _ _ _ => trivial)

theorem processChain_modulo (W : Wheel) (c : List Bucket) (p : EratBig × List Nat) :
    ((EratBig.processChain W c p).1).moduloSieveSize = p.1.moduloSieveSize := by
  exact processChain_pres W (fun t => t.moduloSieveSize = p.1.moduloSieveSize)
    (fun _ => True) (fun s q m w hs _ => (store_modulo s q m w).trans hs)
    (fun s hs => hs) c p rfl (fun _ _ _ _ => trivial)

theorem processChain_length (W : Wheel) (c : List Bucket) (p : EratBig × List Nat) :
    ((EratBig.processChain W c p).1).lists.length = p.1.lists.length := by
  exact processChain_pres W (fun t => t.lists.length = p.1.lists.length)
    (fun _ => True) (fun s q m w hs _ => (store_length s q m w).trans hs)
    (fun s hs => hs) c p rfl (fun _ _ _ _ => trivial)

theorem crossOffLoop_log2 (W : Wheel) :
    ∀ (fuel : Nat) (p : EratBig × List Nat),
      ((EratBig.crossOffLoop W fuel p).1).log2SieveSize = p.1.log2SieveSize := by
  intro fuel
  induction fuel with
  | zero => intro p; rfl
  | succ n ih =>
    intro p
    simp only [EratBig.crossOffLoop]
    split
    · rfl
    · rw [ih, processChain_log2]
      exact pushBucket_log2 _ _

theorem crossOffLoop_modulo (W : Wheel) :
    ∀ (fuel : Nat) (p : EratBig × List Nat),
      ((EratBig.crossOffLoop W fuel p).1).moduloSieveSize = p.1.moduloSieveSize := by
  intro fuel
  induction fuel with
  | zero => intro p; rfl
  | succ n ih =>
    intro p
    simp only [EratBig.crossOffLoop]
    split
    · rfl
    · rw [ih, processChain_modulo]
      exact pushBucket_modulo _ _

theorem crossOffLoop_length (W : Wheel) :
    ∀ (fuel : Nat) (p : EratBig × List Nat),
      ((EratBig.crossOffLoop W fuel p).1).lists.length = p.1.lists.length := by
  intro fuel
  induction fuel with
  | zero => intro p; rfl
  | succ n ih =>
    intro p
    simp only [EratBig.crossOffLoop]
    split
    · rfl
    · rw [ih, processChain_length, pushBucket_length]
      simp

/-- Claim C5: the unrolled bucket-processing loop of
`EratBig::crossOff(Bucket&, uint8_t*)`, which handles two triples per
iteration with any odd tail triple handled scalarly, is equivalent to the
naive loop that processes the bucket's triples one at a time in order: it
produces the same final sieve array and the same resulting engine state
(hence the same multiset of re-routed triples in `lists_` and `stock_`). -/
theorem crossOffBucket_unroll_equiv (W : Wheel) (b : Bucket) (s : EratBig)
    (sieve : List Nat) :
    EratBig.crossOffBucket W b (s, sieve) = EratBig.crossOffBucketNaive W b (s, sieve) :=
  crossOffBucket_eq_foldl W b (s, sieve)

/-- Claim C8: two successive invocations of `sieve(start, stop)` (and of
`countPrimes(start, stop)`) on the same `PrimeSieve` produce identical
prime and k-tuplet counts: the second call resets the accumulators before
accumulating the deterministic counts of the interval again. -/
theorem sieve_idempotent (f : Nat → Nat → List Nat) (ps : PrimeSieve)
    (start stop : Nat) :
    ((ps.sieveRange f start stop).sieveRange f start stop).counts
        = (ps.sieveRange f start stop).counts
    ∧ (PrimeSieve.countPrimes f (PrimeSieve.countPrimes f ps start stop).2 start stop).1
        = (PrimeSieve.countPrimes f ps start stop).1 := by
  constructor <;> rfl

/-! ### The power-of-two configuration check (claim C4) -/

theorem isPowerOf2_iff (n : Nat) : isPowerOf2 n = true ↔ ∃ k, n = 2 ^ k := by
  unfold isPowerOf2
  simp only [Bool.and_eq_true, bne_iff_ne, ne_eq, beq_iff_eq]
  constructor
  · rintro ⟨h0, h⟩
    exact ⟨Nat.log2 n, h.symm⟩
  · rintro ⟨k, rfl⟩
    have hp : 0 < 2 ^ k := pow_pos (by norm_num) k
    exact ⟨by omega, by rw [Nat.log2_two_pow]⟩

/-- Claim C4: constructing an `EratBig` with a sieve size that is not a power
of two fails with the typed configuration error, raised by the first
statement of the constructor (in this model the error branch returns before
`setListsSize` and `init` are evaluated, so no bucket list is sized and no
slab is allocated); conversely, for every power-of-two sieve size the
constructor does not raise this error. -/
theorem mkEratBig_pow2_check (n sqrtStop maxFactor : Nat) :
    (mkEratBig n sqrtStop maxFactor
        = Except.error "EratBig: sieveSize must be a power of 2 (2^n)."
      ↔ ¬ ∃ k, n = 2 ^ k)
    ∧ ((∃ k, n = 2 ^ k) → ∃ s, mkEratBig n sqrtStop maxFactor = Except.ok s) := by
  rcases h : isPowerOf2 n with _ | _
  · have hex : ¬ ∃ k, n = 2 ^ k := by
      rw [← isPowerOf2_iff, h]; simp
    constructor
    · simp [mkEratBig, h, hex]
    · intro hc; exact absurd hc hex
  · have hex : ∃ k, n = 2 ^ k := (isPowerOf2_iff n).mp h
    constructor
    · simp [mkEratBig, h, hex]
    · intro _
      exact ⟨EratBig.init
        { log2SieveSize := ilog2 n
          moduloSieveSize := n - 1
          lists := List.replicate (setListsSizeLen n sqrtStop maxFactor) []
          stock := 0
          pointers := 0 }, by unfold mkEratBig; rw [h]; rfl⟩

/-! ### Horizon sizing (claim C6) -/

theorem init_lists_length (s : EratBig) : (EratBig.init s).lists.length = s.lists.length := by
  unfold EratBig.init
  generalize List.range s.lists.length = is
  induction is generalizing s with
  | nil => rfl
  | cons i is ih =>
    simp only [List.foldl]
    rw [ih (s.pushBucket i), pushBucket_length]

theorem mkEratBig_ok_shape (n sq mf : Nat) (s : EratBig)
    (h : mkEratBig n sq mf = Except.ok s) :
    s = EratBig.init
      { log2SieveSize := ilog2 n
        moduloSieveSize := n - 1
        lists := List.replicate (setListsSizeLen n sq mf) []
        stock := 0
        pointers := 0 } ∧ isPowerOf2 n = true := by
  rcases hp : isPowerOf2 n with _ | _
  · simp [mkEratBig, hp] at h
  · simp only [mkEratBig, hp, Bool.not_true, Bool.false_eq_true, if_false,
      Except.ok.injEq] at h
    exact ⟨h.symm, rfl⟩

theorem ceilDiv_spec (M S : Nat) (hS : 0 < S) :
    M ≤ S * ((M + S - 1) / S) ∧ ∀ k, M ≤ S * k → (M + S - 1) / S ≤ k := by
  constructor
  · have h1 := Nat.div_add_mod (M + S - 1) S
    have h2 : (M + S - 1) % S < S := Nat.mod_lt _ hS
    omega
  · intro k hk
    have h4 : (S * k + (S - 1)) / S = k := by
      rw [Nat.mul_add_div hS, Nat.div_eq_of_lt (show S - 1 < S by omega)]
      omega
    have h3 : (M + S - 1) / S ≤ (S * k + (S - 1)) / S :=
      Nat.div_le_div_right (by omega)
    omega

/-- Claim C6: after construction the number of bucket-list heads equals
`S_horizon + 1` where `S_horizon = ceil(maxNextMultiple / S)` with
`maxNextMultiple = (sqrtStop / 30) * maxFactor + maxFactor`; equivalently the
value `((S - 1 + maxNextMultiple) >> log2 S) + 1` computed by `setListsSize`
equals `(maxNextMultiple + S - 1) / S + 1` for every power-of-two `S`, and
that quotient is the ceiling of `maxNextMultiple / S` (least `k` with
`maxNextMultiple ≤ S * k`). -/
theorem setListsSize_horizon (L sqrtStop maxFactor : Nat) :
    setListsSizeLen (2 ^ L) sqrtStop maxFactor
        = (sqrtStop / NUMBERS_PER_BYTE * maxFactor + maxFactor + 2 ^ L - 1) / 2 ^ L + 1
    ∧ sqrtStop / NUMBERS_PER_BYTE * maxFactor + maxFactor
        ≤ 2 ^ L * ((sqrtStop / NUMBERS_PER_BYTE * maxFactor + maxFactor + 2 ^ L - 1) / 2 ^ L)
    ∧ (∀ k, sqrtStop / NUMBERS_PER_BYTE * maxFactor + maxFactor ≤ 2 ^ L * k →
        (sqrtStop / NUMBERS_PER_BYTE * maxFactor + maxFactor + 2 ^ L - 1) / 2 ^ L ≤ k)
    ∧ (∀ s, mkEratBig (2 ^ L) sqrtStop maxFactor = Except.ok s →
        s.lists.length = setListsSizeLen (2 ^ L) sqrtStop maxFactor) := by
  have hp : 0 < 2 ^ L := pow_pos (by norm_num) L
  have hspec := ceilDiv_spec (sqrtStop / NUMBERS_PER_BYTE * maxFactor + maxFactor) (2 ^ L) hp
  have heq : setListsSizeLen (2 ^ L) sqrtStop maxFactor
      = (sqrtStop / NUMBERS_PER_BYTE * maxFactor + maxFactor + 2 ^ L - 1) / 2 ^ L + 1 := by
    simp only [setListsSizeLen, ilog2, Nat.log2_two_pow, Nat.shiftRight_eq_div_pow]
    have hnum : 2 ^ L - 1 + (sqrtStop / NUMBERS_PER_BYTE * maxFactor + maxFactor)
        = sqrtStop / NUMBERS_PER_BYTE * maxFactor + maxFactor + 2 ^ L - 1 := by omega
    rw [hnum]
  refine ⟨heq, hspec.1, hspec.2, ?_⟩
  intro s hs
  rcases mkEratBig_ok_shape _ _ _ _ hs with ⟨rfl, _⟩
  rw [init_lists_length]
  simp

theorem pushBucket_stock (s : EratBig) (i : Nat) :
    (s.pushBucket i).stock = (if s.stock = 0 then BUCKETS_PER_ALLOC else s.stock) - 1 := by
  unfold EratBig.pushBucket; split <;> simp_all

/-- Claim C1: for a triple passed to `storeSievingPrime` with
`multipleIndex >> log2SieveSize_ < lists_.size()` (given here through the
head bucket of that list), the operation stores the reduced triple
`(p, multipleIndex & (S-1), w)` in exactly one bucket of
`lists_[multipleIndex >> L]`: into the head bucket when it still has room,
and otherwise the head bucket receives the triple in its last slot and an
empty bucket taken from `stock_` (allocating a slab of `BUCKETS_PER_ALLOC`
buckets when `stock_` is empty) becomes the new head. All other lists are
unchanged and no triple is ever dropped (the flattened content of the target
list is the old content plus the new triple). -/
theorem storeSievingPrime_spec (s : EratBig) (p mI w : Nat)
    (head : Bucket) (rest : List Bucket)
    (hseg : mI >>> s.log2SieveSize < s.lists.length)
    (hchain : s.lists.getD (mI >>> s.log2SieveSize) [] = head :: rest) :
    ((head.length + 1 < BUCKET_SIZE ∧
        (s.storeSievingPrime p mI w).lists.getD (mI >>> s.log2SieveSize) []
          = (head ++ [⟨p, mI &&& s.moduloSieveSize, w⟩]) :: rest ∧
        (s.storeSievingPrime p mI w).stock = s.stock ∧
        (s.storeSievingPrime p mI w).pointers = s.pointers)
      ∨ (¬ head.length + 1 < BUCKET_SIZE ∧
        (s.storeSievingPrime p mI w).lists.getD (mI >>> s.log2SieveSize) []
          = [] :: (head ++ [⟨p, mI &&& s.moduloSieveSize, w⟩]) :: rest ∧
        ((s.stock = 0 ∧ (s.storeSievingPrime p mI w).stock = BUCKETS_PER_ALLOC - 1 ∧
            (s.storeSievingPrime p mI w).pointers = s.pointers + 1)
          ∨ (0 < s.stock ∧ (s.storeSievingPrime p mI w).stock = s.stock - 1 ∧
            (s.storeSievingPrime p mI w).pointers = s.pointers))))
    ∧ (∀ j, j ≠ mI >>> s.log2SieveSize →
        (s.storeSievingPrime p mI w).lists.getD j [] = s.lists.getD j [])
    ∧ ((s.storeSievingPrime p mI w).lists.getD (mI >>> s.log2SieveSize) []).flatten
        = head ++ ⟨p, mI &&& s.moduloSieveSize, w⟩ :: rest.flatten := by
  by_cases hfull : head.length + 1 < BUCKET_SIZE
  · have hres : s.storeSievingPrime p mI w
        = { s with lists := (s.lists.set (mI >>> s.log2SieveSize)
            ((head ++ [⟨p, mI &&& s.moduloSieveSize, w⟩]) :: rest)) } := by
      simp only [EratBig.storeSievingPrime, hchain, Bucket.store]
      simp [hfull]
    rw [hres]
    refine ⟨Or.inl ⟨hfull, getD_set_self _ _ _ _ hseg, rfl, rfl⟩, ?_, ?_⟩
    · intro j hj
      exact getD_set_ne _ _ _ _ _ (Ne.symm hj)
    · rw [getD_set_self _ _ _ _ hseg]
      simp
  · have hres : s.storeSievingPrime p mI w
        = EratBig.pushBucket
            { s with lists := (s.lists.set (mI >>> s.log2SieveSize)
              ((head ++ [⟨p, mI &&& s.moduloSieveSize, w⟩]) :: rest)) }
            (mI >>> s.log2SieveSize) := by
      simp only [EratBig.storeSievingPrime, hchain, Bucket.store]
      simp [hfull]
    have hseg' : mI >>> s.log2SieveSize
        < (s.lists.set (mI >>> s.log2SieveSize)
            ((head ++ [⟨p, mI &&& s.moduloSieveSize, w⟩]) :: rest)).length := by
      simpa using hseg
    rw [hres]
    refine ⟨Or.inr ⟨hfull, ?_, ?_⟩, ?_, ?_⟩
    · rw [pushBucket_lists]
      rw [getD_set_self _ _ _ _ (by simpa using hseg')]
      rw [getD_set_self _ _ _ _ hseg]
    · rcases Nat.eq_zero_or_pos s.stock with h0 | h0
      · refine Or.inl ⟨h0, ?_, ?_⟩
        · rw [pushBucket_stock]; simp [h0]
        · rw [pushBucket_pointers]; simp [h0]
      · refine Or.inr ⟨h0, ?_, ?_⟩
        · rw [pushBucket_stock]; simp [Nat.pos_iff_ne_zero.mp h0]
        · rw [pushBucket_pointers]; simp [Nat.pos_iff_ne_zero.mp h0]
    · intro j hj
      rw [pushBucket_lists]
      rw [getD_set_ne _ _ _ _ _ (Ne.symm hj), getD_set_ne _ _ _ _ _ (Ne.symm hj)]
    · rw [pushBucket_lists]
      rw [getD_set_self _ _ _ _ (by simpa using hseg')]
      rw [getD_set_self _ _ _ _ hseg]
      simp

/-- Concrete instantiation of claim C1 at an explicit state: sieve size 4,
one bucket list holding a single empty bucket; the triple `(5, 1, 0)` is
routed to segment `1 >> 2 = 0` with offset `1 & 3 = 1`. -/
theorem storeSievingPrime_spec_witness :
    ((1 : Nat) >>> (⟨2, 3, [[[]]], 0, 0⟩ : EratBig).log2SieveSize
        < (⟨2, 3, [[[]]], 0, 0⟩ : EratBig).lists.length)
    ∧ (⟨2, 3, [[[]]], 0, 0⟩ : EratBig).lists.getD
        (1 >>> (⟨2, 3, [[[]]], 0, 0⟩ : EratBig).log2SieveSize) [] = [] :: []
    ∧ (((⟨2, 3, [[[]]], 0, 0⟩ : EratBig).storeSievingPrime 5 1 0).lists.getD
          (1 >>> (⟨2, 3, [[[]]], 0, 0⟩ : EratBig).log2SieveSize) []).flatten
        = [] ++ ⟨5, 1 &&& (⟨2, 3, [[[]]], 0, 0⟩ : EratBig).moduloSieveSize, 0⟩
            :: ([] : List Bucket).flatten := by
  refine ⟨by decide, by decide, ?_⟩
  exact (storeSievingPrime_spec ⟨2, 3, [[[]]], 0, 0⟩ 5 1 0 [] []
    (by decide) (by decide)).2.2

/-! ### Non-null bucket list heads (claim C9) -/

theorem getD_eq_getElem {α : Type} (l : List α) (i : Nat) (d : α) (h : i < l.length) :
    l.getD i d = l[i] := by
  simp [List.getD_eq_getElem?_getD, List.getElem?_eq_getElem h]

theorem nonnull_set_cons (l : List (List Bucket)) (i : Nat) (b : Bucket) (c : List Bucket)
    (h : ∀ x ∈ l, x ≠ []) : ∀ x ∈ l.set i (b :: c), x ≠ [] := by
  intro x hx
  rcases List.mem_or_eq_of_mem_set hx with h1 | rfl
  · exact h x h1
  · simp

theorem store_nonnull (s : EratBig) (p m w : Nat) (h : s.NonNull) :
    (s.storeSievingPrime p m w).NonNull := by
  obtain ⟨hlen, hnn⟩ := h
  rcases hch : s.lists.getD (m >>> s.log2SieveSize) [] with _ | ⟨head, rest⟩
  · simp only [EratBig.storeSievingPrime, hch]
    exact ⟨hlen, hnn⟩
  · simp only [EratBig.storeSievingPrime, hch, Bucket.store]
    split
    · refine ⟨by simpa using hlen, ?_⟩
      exact nonnull_set_cons _ _ _ _ hnn
    · constructor
      · rw [pushBucket_length]
        simpa using hlen
      · rw [pushBucket_lists]
        intro x hx
        rcases List.mem_or_eq_of_mem_set hx with h1 | rfl
        · exact nonnull_set_cons _ _ _ _ hnn x h1
        · simp

theorem detach_push_lists (s : EratBig) (hlen : 0 < s.lists.length) :
    (EratBig.pushBucket { s with lists := s.lists.set 0 ([] : List Bucket) } 0).lists
      = s.lists.set 0 [([] : Bucket)] := by
  rw [pushBucket_lists]
  have h0 : (s.lists.set 0 ([] : List Bucket)).getD 0 [] = [] :=
    getD_set_self _ _ _ _ hlen
  rw [h0]
  exact List.set_set _ _ _ _

theorem detach_push_nonnull (s : EratBig) (h : s.NonNull) :
    (EratBig.pushBucket { s with lists := s.lists.set 0 ([] : List Bucket) } 0).NonNull := by
  obtain ⟨hlen, hnn⟩ := h
  constructor
  · rw [pushBucket_length]
    simpa using hlen
  · rw [detach_push_lists s hlen]
    intro x hx
    rcases List.mem_or_eq_of_mem_set hx with h1 | rfl
    · exact hnn x h1
    · simp

theorem crossOffLoop_nonnull (W : Wheel) :
    ∀ (fuel : Nat) (p : EratBig × List Nat), p.1.NonNull →
      ((EratBig.crossOffLoop W fuel p).1).NonNull := by
  intro fuel
  induction fuel with
  | zero => intro p h; exact h
  | succ n ih =>
    intro p h
    simp only [EratBig.crossOffLoop]
    split
    · exact h
    · apply ih
      refine processChain_pres W EratBig.NonNull (fun _ => True)
        (fun s q m w hs _ => store_nonnull s q m w hs)
        (fun s hs => ⟨hs.1, hs.2⟩) _ _ ?_ (fun _ _ _ _ => trivial)
      exact detach_push_nonnull p.1 h

theorem rotate_nonnull (s : EratBig) (h : s.NonNull) :
    EratBig.NonNull { s with lists := (s.lists.drop 1 ++ [s.lists.getD 0 []]) } := by
  obtain ⟨hlen, hnn⟩ := h
  constructor
  · simp
  · intro c hc
    rcases List.mem_append.mp hc with h1 | h1
    · exact hnn c (List.mem_of_mem_drop h1)
    · rcases List.mem_singleton.mp h1 with rfl
      exact hnn _ (getD_mem _ _ _ hlen)

theorem foldl_pushBucket_nonnull (is : List Nat) :
    ∀ (s : EratBig) (j : Nat), j < s.lists.length →
      (j ∈ is ∨ s.lists.getD j [] ≠ []) →
      (is.foldl (fun t i => t.pushBucket i) s).lists.getD j [] ≠ [] := by
  induction is with
  | nil =>
    intro s j hj h
    rcases h with h | h
    · cases h
    · exact h
  | cons i is ih =>
    intro s j hj h
    simp only [List.foldl]
    apply ih (s.pushBucket i) j (by rw [pushBucket_length]; exact hj)
    rcases h with h | h
    · rcases List.mem_cons.mp h with rfl | h2
      · right
        rw [pushBucket_lists, getD_set_self _ _ _ _ hj]
        simp
      · left
        exact h2
    · right
      rw [pushBucket_lists]
      by_cases hij : i = j
      · subst hij
        rw [getD_set_self _ _ _ _ hj]
        simp
      · rw [getD_set_ne _ _ _ _ _ hij]
        exact h

theorem mkEratBig_nonnull (n sq mf : Nat) (s : EratBig)
    (h : mkEratBig n sq mf = Except.ok s) : s.NonNull := by
  rcases mkEratBig_ok_shape _ _ _ _ h with ⟨rfl, _⟩
  have hlen0 : 0 < setListsSizeLen n sq mf := Nat.succ_pos _
  constructor
  · rw [init_lists_length]
    simpa using hlen0
  · intro c hc
    rcases List.mem_iff_getElem.mp hc with ⟨j, hj, rfl⟩
    rw [← getD_eq_getElem _ _ [] hj]
    rw [init_lists_length] at hj
    apply foldl_pushBucket_nonnull
    · simpa using hj
    · left
      simpa using hj

/-- Claim C9: every entry of `lists_` is a non-null bucket pointer outside
the transient detach step inside `crossOff`: construction pushes one empty
bucket onto each list, `storeSievingPrime` preserves non-nullness, and
`crossOff` (which re-pushes an empty bucket right after detaching
`lists_[0]` and reinstalls the drained empty bucket at the tail after
rotation) preserves it as well; consequently the unchecked dereference
`lists_[segment]` hits a non-null head for every segment index within
`lists_.size()`. -/
theorem lists_always_nonnull :
    (∀ n sq mf s, mkEratBig n sq mf = Except.ok s → s.NonNull)
    ∧ (∀ (s : EratBig) p m w, s.NonNull → (s.storeSievingPrime p m w).NonNull)
    ∧ (∀ (W : Wheel) (fuel : Nat) (s : EratBig) (sieve : List Nat),
        s.NonNull → ((EratBig.crossOff W fuel s sieve).1).NonNull)
    ∧ (∀ (s : EratBig), s.NonNull →
        ∀ seg, seg < s.lists.length → s.lists.getD seg [] ≠ []) := by
  refine ⟨mkEratBig_nonnull, store_nonnull, ?_, ?_⟩
  · intro W fuel s sieve h
    unfold EratBig.crossOff
    exact rotate_nonnull _ (crossOffLoop_nonnull W fuel (s, sieve) h)
  · intro s h seg hseg
    exact h.2 _ (getD_mem _ _ _ hseg)

/-! ### Bucket pool conservation (claim C7) -/

theorem sum_map_length_set (l : List (List Bucket)) (i : Nat) (c : List Bucket)
    (h : i < l.length) :
    ((l.set i c).map List.length).sum + (l.getD i []).length
      = (l.map List.length).sum + c.length := by
  induction l generalizing i with
  | nil => simp at h
  | cons a l ih =>
    cases i with
    | zero => simp [List.set]; omega
    | succ j =>
      simp only [List.set, List.map, List.sum_cons, List.getD_cons_succ]
      have := ih j (by simpa using h)
      omega

theorem pushBucket_conservK (s : EratBig) (i : Nat) (k : Nat) (hi : i < s.lists.length)
    (h : s.bucketCount + k = s.pointers * BUCKETS_PER_ALLOC) :
    (s.pushBucket i).bucketCount + k = (s.pushBucket i).pointers * BUCKETS_PER_ALLOC := by
  unfold EratBig.bucketCount at h ⊢
  rw [pushBucket_lists, pushBucket_stock, pushBucket_pointers]
  have hs := sum_map_length_set s.lists i ([] :: s.lists.getD i []) hi
  simp only [List.length_cons] at hs
  have hmul : (s.pointers + 1) * BUCKETS_PER_ALLOC
      = s.pointers * BUCKETS_PER_ALLOC + BUCKETS_PER_ALLOC := by ring
  have halloc : 0 < BUCKETS_PER_ALLOC := by norm_num [BUCKETS_PER_ALLOC]
  by_cases h0 : s.stock = 0
  · rw [if_pos h0, if_pos h0, hmul]
    omega
  · rw [if_neg h0, if_neg h0]
    omega

theorem store_conservK (s : EratBig) (p m w : Nat) (k : Nat)
    (h : s.bucketCount + k = s.pointers * BUCKETS_PER_ALLOC) :
    (s.storeSievingPrime p m w).bucketCount + k
      = (s.storeSievingPrime p m w).pointers * BUCKETS_PER_ALLOC := by
  rcases hch : s.lists.getD (m >>> s.log2SieveSize) [] with _ | ⟨head, rest⟩
  · simp only [EratBig.storeSievingPrime, hch]
    exact h
  · have hseg : m >>> s.log2SieveSize < s.lists.length :=
      pos_length_of_getD_ne _ _ _ (by rw [hch]; simp)
    have hmid : ∀ c : List Bucket, c.length = (head :: rest).length →
        (((s.lists.set (m >>> s.log2SieveSize) c).map List.length).sum + s.stock) + k
          = s.pointers * BUCKETS_PER_ALLOC := by
      intro c hc
      have hs := sum_map_length_set s.lists (m >>> s.log2SieveSize) c hseg
      rw [hch] at hs
      unfold EratBig.bucketCount at h
      omega
    simp only [EratBig.storeSievingPrime, hch, Bucket.store]
    split
    · exact hmid _ (by simp)
    · apply pushBucket_conservK _ _ _ (by simpa using hseg)
      exact hmid _ (by simp)

theorem processChain_conservK (W : Wheel) :
    ∀ (c : List Bucket) (p : EratBig × List Nat) (k : Nat),
      p.1.bucketCount + (k + c.length) = p.1.pointers * BUCKETS_PER_ALLOC →
      ((EratBig.processChain W c p).1).bucketCount + k
        = ((EratBig.processChain W c p).1).pointers * BUCKETS_PER_ALLOC := by
  intro c
  induction c with
  | nil =>
    intro p k h
    simpa using h
  | cons b c ih =>
    intro p k h
    simp only [EratBig.processChain]
    apply ih
    have hq : (EratBig.crossOffBucket W b p).1.bucketCount + (k + c.length + 1)
        = (EratBig.crossOffBucket W b p).1.pointers * BUCKETS_PER_ALLOC := by
      refine crossOffBucket_pres W
        (fun t => t.bucketCount + (k + c.length + 1) = t.pointers * BUCKETS_PER_ALLOC)
        (fun _ => True)
        (fun s q m w hs _ => store_conservK s q m w _ hs) b p ?_ (fun _ _ => trivial)
      simp only [List.length_cons] at h
      omega
    unfold EratBig.bucketCount at hq ⊢
    simp only [] at hq ⊢
    omega

theorem crossOffLoop_conserv (W : Wheel) :
    ∀ (fuel : Nat) (p : EratBig × List Nat), 0 < p.1.lists.length → p.1.Conserv →
      ((EratBig.crossOffLoop W fuel p).1).Conserv := by
  intro fuel
  induction fuel with
  | zero => intro p _ h; exact h
  | succ n ih =>
    intro p hlen h
    simp only [EratBig.crossOffLoop]
    split
    · exact h
    · apply ih
      · rw [processChain_length, pushBucket_length]
        simpa using hlen
      · unfold EratBig.Conserv
        have hpc := processChain_conservK W (p.1.lists.getD 0 [])
            (EratBig.pushBucket
              { log2SieveSize := p.1.log2SieveSize
                moduloSieveSize := p.1.moduloSieveSize
                lists := p.1.lists.set 0 ([] : List Bucket)
                stock := p.1.stock
                pointers := p.1.pointers } 0,
              p.2) 0 ?_
        · omega
        · apply pushBucket_conservK _ _ _ (by simpa using hlen)
          unfold EratBig.Conserv EratBig.bucketCount at h
          unfold EratBig.bucketCount
          have hs := sum_map_length_set p.1.lists 0 ([] : List Bucket) hlen
          simp only [List.length_nil] at hs
          dsimp only
          omega

theorem sum_map_length_rotate (l : List (List Bucket)) :
    ((l.drop 1 ++ [l.getD 0 []]).map List.length).sum = (l.map List.length).sum := by
  rcases l with _ | ⟨c, t⟩
  · simp
  · simp
    omega

theorem rotate_conserv (s : EratBig) (h : s.Conserv) :
    EratBig.Conserv { s with lists := (s.lists.drop 1 ++ [s.lists.getD 0 []]) } := by
  unfold EratBig.Conserv EratBig.bucketCount at h ⊢
  dsimp only
  rw [sum_map_length_rotate]
  exact h

theorem foldl_pushBucket_conserv (is : List Nat) :
    ∀ s : EratBig, (∀ i ∈ is, i < s.lists.length) → s.Conserv →
      (is.foldl (fun t i => t.pushBucket i) s).Conserv := by
  induction is with
  | nil => intro s _ h; exact h
  | cons i is ih =>
    intro s hi h
    simp only [List.foldl]
    apply ih
    · intro j hj
      rw [pushBucket_length]
      exact hi j (List.mem_cons_of_mem _ hj)
    · have := pushBucket_conservK s i 0 (hi i (List.mem_cons_self _ _)) (by
        unfold EratBig.Conserv at h; omega)
      unfold EratBig.Conserv
      omega

theorem mkEratBig_conserv (n sq mf : Nat) (s : EratBig)
    (h : mkEratBig n sq mf = Except.ok s) : s.Conserv := by
  rcases mkEratBig_ok_shape _ _ _ _ h with ⟨rfl, _⟩
  unfold EratBig.init
  apply foldl_pushBucket_conserv
  · intro i hi
    simpa using List.mem_range.mp hi
  · unfold EratBig.Conserv EratBig.bucketCount
    simp [List.map_replicate]

/-- Claim C7: `EratBig` never deallocates an individual bucket during
operation. Buckets are allocated only in slabs of `BUCKETS_PER_ALLOC`
recorded in `pointers_`, every bucket emptied by `crossOff` returns to the
`stock_` free list, and the conservation equation
`buckets in lists_ + stock_ = pointers_ * BUCKETS_PER_ALLOC` is established
by the constructor and preserved by `storeSievingPrime` and `crossOff`;
teardown releases exactly the recorded slabs. -/
theorem bucket_pool_conservation :
    (∀ n sq mf s, mkEratBig n sq mf = Except.ok s → s.Conserv)
    ∧ (∀ (s : EratBig) p m w, s.Conserv → (s.storeSievingPrime p m w).Conserv)
    ∧ (∀ (W : Wheel) (fuel : Nat) (s : EratBig) (sieve : List Nat),
        0 < s.lists.length → s.Conserv →
        ((EratBig.crossOff W fuel s sieve).1).Conserv)
    ∧ (∀ s : EratBig, s.destruct = s.pointers) := by
  refine ⟨mkEratBig_conserv, ?_, ?_, fun _ => rfl⟩
  · intro s p m w h
    have := store_conservK s p m w 0 (by unfold EratBig.Conserv at h; omega)
    unfold EratBig.Conserv
    omega
  · intro W fuel s sieve hlen h
    unfold EratBig.crossOff
    exact rotate_conserv _ (crossOffLoop_conserv W fuel (s, sieve) hlen h)

/-! ### Invariant preservation -/

theorem forall_mem_set {α : Type} (l : List α) (i : Nat) (v : α) (P : α → Prop)
    (hl : ∀ x ∈ l, P x) (hv : P v) : ∀ x ∈ l.set i v, P x := by
  intro x hx
  rcases List.mem_or_eq_of_mem_set hx with h1 | rfl
  · exact hl x h1
  · exact hv

/-- The two possible outcomes of `storeSievingPrime` on a non-null list:
append to the head bucket, or append and push a fresh head. -/
theorem store_cases (s : EratBig) (p mI w : Nat) (head : Bucket) (rest : List Bucket)
    (hchain : s.lists.getD (mI >>> s.log2SieveSize) [] = head :: rest) :
    (head.length + 1 < BUCKET_SIZE ∧
      s.storeSievingPrime p mI w
        = { s with lists := (s.lists.set (mI >>> s.log2SieveSize)
            ((head ++ [⟨p, mI &&& s.moduloSieveSize, w⟩]) :: rest)) })
    ∨ (¬ head.length + 1 < BUCKET_SIZE ∧
      s.storeSievingPrime p mI w
        = EratBig.pushBucket { s with lists := (s.lists.set (mI >>> s.log2SieveSize)
            ((head ++ [⟨p, mI &&& s.moduloSieveSize, w⟩]) :: rest)) }
            (mI >>> s.log2SieveSize)) := by
  by_cases hfull : head.length + 1 < BUCKET_SIZE
  · left
    refine ⟨hfull, ?_⟩
    simp only [EratBig.storeSievingPrime, hchain, Bucket.store]
    simp [hfull]
  · right
    refine ⟨hfull, ?_⟩
    simp only [EratBig.storeSievingPrime, hchain, Bucket.store]
    simp [hfull]

theorem inv_set_chain (s t : EratBig) (seg : Nat) (c : List Bucket) (h : s.Inv)
    (hlog : t.log2SieveSize = s.log2SieveSize)
    (hmod : t.moduloSieveSize = s.moduloSieveSize)
    (hlists : t.lists = s.lists.set seg c)
    (hc1 : c ≠ []) (hc2 : ∀ b ∈ c.tail, b ≠ [])
    (hc3 : ∀ b ∈ c, ∀ wp ∈ b, wp.multipleIndex < s.sieveBytes ∧ 1 ≤ wp.sievingPrime) :
    t.Inv := by
  obtain ⟨hmod0, hlen, hnn, hrest, htrip⟩ := h
  have hsb : t.sieveBytes = s.sieveBytes := by
    unfold EratBig.sieveBytes
    rw [hlog]
  refine ⟨?_, ?_, ?_, ?_, ?_⟩
  · rw [hmod, hsb]
    exact hmod0
  · rw [hlists]
    simpa using hlen
  · rw [hlists]
    exact forall_mem_set _ _ _ _ hnn hc1
  · rw [hlists]
    exact forall_mem_set _ _ _ _ hrest hc2
  · rw [hlists, hsb]
    exact forall_mem_set _ _ _ _ htrip hc3

theorem store_inv (s : EratBig) (p m w : Nat) (hp : 1 ≤ p) (h : s.Inv) :
    (s.storeSievingPrime p m w).Inv := by
  rcases hch : s.lists.getD (m >>> s.log2SieveSize) [] with _ | ⟨head, rest⟩
  · simp only [EratBig.storeSievingPrime, hch]
    exact h
  · have hseg : m >>> s.log2SieveSize < s.lists.length :=
      pos_length_of_getD_ne _ _ _ (by rw [hch]; simp)
    have hchainmem : (head :: rest) ∈ s.lists := by
      rw [← hch]
      exact getD_mem _ _ _ hseg
    obtain ⟨hmod, hlen, hnn, hrest, htrip⟩ := h
    have hS : 0 < s.sieveBytes := pow_pos (by norm_num) _
    have hwpm : m &&& s.moduloSieveSize < s.sieveBytes := by
      rw [hmod]
      have h1 : m &&& (s.sieveBytes - 1) ≤ s.sieveBytes - 1 := Nat.and_le_right
      omega
    have hK : ∀ b ∈ (head ++ [(⟨p, m &&& s.moduloSieveSize, w⟩ : WheelPrime)]) :: rest,
        ∀ wp ∈ b, wp.multipleIndex < s.sieveBytes ∧ 1 ≤ wp.sievingPrime := by
      intro b hb wp hwp
      rcases List.mem_cons.mp hb with rfl | hb2
      · rcases List.mem_append.mp hwp with h1 | h1
        · exact htrip _ hchainmem _ (List.mem_cons_self _ _) _ h1
        · rcases List.mem_singleton.mp h1 with rfl
          exact ⟨hwpm, hp⟩
      · exact htrip _ hchainmem _ (List.mem_cons_of_mem _ hb2) _ hwp
    rcases store_cases s p m w head rest hch with ⟨hfull, heq⟩ | ⟨hfull, heq⟩
    · rw [heq]
      refine inv_set_chain s _ (m >>> s.log2SieveSize) _
        ⟨hmod, hlen, hnn, hrest, htrip⟩ rfl rfl rfl (by simp) ?_ hK
      intro b hb
      exact hrest _ hchainmem b (by simpa using hb)
    · rw [heq]
      refine inv_set_chain s _ (m >>> s.log2SieveSize)
        (([] : Bucket) :: (head ++ [⟨p, m &&& s.moduloSieveSize, w⟩]) :: rest)
        ⟨hmod, hlen, hnn, hrest, htrip⟩ (pushBucket_log2 _ _) (pushBucket_modulo _ _) ?_
        (by simp) ?_ ?_
      · rw [pushBucket_lists]
        dsimp only
        rw [getD_set_self _ _ _ _ hseg, List.set_set]
      · intro b hb
        rcases List.mem_cons.mp hb with rfl | hb2
        · simp
        · exact hrest _ hchainmem b hb2
      · intro b hb wp hwp
        rcases List.mem_cons.mp hb with rfl | hb2
        · cases hwp
        · exact hK b hb2 wp hwp

theorem detach_push_inv (s : EratBig) (h : s.Inv) :
    (EratBig.pushBucket { s with lists := (s.lists.set 0 ([] : List Bucket)) } 0).Inv := by
  refine inv_set_chain s _ 0 [([] : Bucket)] h
    (pushBucket_log2 _ _) (pushBucket_modulo _ _) (detach_push_lists s h.2.1)
    (by simp) (by simp) ?_
  intro b hb wp hwp
  rcases List.mem_singleton.mp hb with rfl
  cases hwp

theorem crossOffBucket_inv (W : Wheel) (b : Bucket) (p : EratBig × List Nat)
    (h : p.1.Inv) (hq : ∀ wp ∈ b, 1 ≤ wp.sievingPrime) :
    ((EratBig.crossOffBucket W b p).1).Inv := by
  refine crossOffBucket_pres W EratBig.Inv (fun wp => 1 ≤ wp.sievingPrime) ?_ b p h hq
  rintro s q m w hs ⟨wp, hw, rfl⟩
  exact store_inv s _ m w hw hs

theorem processChain_inv (W : Wheel) (c : List Bucket) (p : EratBig × List Nat)
    (h : p.1.Inv) (hq : ∀ b ∈ c, ∀ wp ∈ b, 1 ≤ wp.sievingPrime) :
    ((EratBig.processChain W c p).1).Inv := by
  refine processChain_pres W EratBig.Inv (fun wp => 1 ≤ wp.sievingPrime) ?_
    (fun s hs => hs) c p h hq
  rintro s q m w hs ⟨wp, hw, rfl⟩
  exact store_inv s _ m w hw hs

/-! ### The termination measure and its decrease -/

theorem shiftRight_eq_zero_iff (mI L : Nat) : mI >>> L = 0 ↔ mI < 2 ^ L := by
  rw [Nat.shiftRight_eq_div_pow]
  exact Nat.div_eq_zero_iff (pow_pos (by norm_num) L)

theorem chainWeight_append_triple (S : Nat) (head : Bucket) (rest : List Bucket)
    (wp : WheelPrime) :
    chainWeight S ((head ++ [wp]) :: rest)
      = chainWeight S (head :: rest) + (S - wp.multipleIndex) := by
  unfold chainWeight
  simp [List.sum_append]
  omega

theorem chainWeight_cons_empty (S : Nat) (c : List Bucket) :
    chainWeight S (([] : Bucket) :: c) = chainWeight S c := by
  unfold chainWeight
  simp

theorem weight0_of_set (s t : EratBig) (seg : Nat) (c : List Bucket)
    (hlog : t.log2SieveSize = s.log2SieveSize)
    (hlists : t.lists = s.lists.set seg c) (hlen : 0 < s.lists.length) :
    t.weight0 = if seg = 0 then chainWeight s.sieveBytes c else s.weight0 := by
  unfold EratBig.weight0
  have hsb : t.sieveBytes = s.sieveBytes := by
    unfold EratBig.sieveBytes
    rw [hlog]
  rw [hsb, hlists]
  by_cases h0 : seg = 0
  · subst h0
    rw [getD_set_self _ _ _ _ hlen, if_pos rfl]
  · rw [getD_set_ne _ _ _ _ _ h0, if_neg h0]

theorem store_weight0_le (s : EratBig) (p mI w : Nat) (h : s.Inv) :
    (s.storeSievingPrime p mI w).weight0 ≤ s.weight0 + (s.sieveBytes - mI) := by
  obtain ⟨hmod, hlen, hnn, hrest, htrip⟩ := h
  rcases hch : s.lists.getD (mI >>> s.log2SieveSize) [] with _ | ⟨head, rest⟩
  · simp only [EratBig.storeSievingPrime, hch]
    omega
  · have hseg : mI >>> s.log2SieveSize < s.lists.length :=
      pos_length_of_getD_ne _ _ _ (by rw [hch]; simp)
    have hmain : ∀ t : EratBig, t.log2SieveSize = s.log2SieveSize →
        t.lists = s.lists.set (mI >>> s.log2SieveSize)
          ((head ++ [⟨p, mI &&& s.moduloSieveSize, w⟩]) :: rest) →
        t.weight0 ≤ s.weight0 + (s.sieveBytes - mI) := by
      intro t hlog hlists
      rw [weight0_of_set s t _ _ hlog hlists hlen]
      by_cases h0 : mI >>> s.log2SieveSize = 0
      · rw [if_pos h0]
        have hmlt : mI < s.sieveBytes := by
          have := (shiftRight_eq_zero_iff mI s.log2SieveSize).mp h0
          unfold EratBig.sieveBytes
          exact this
        have hmask : mI &&& s.moduloSieveSize = mI := by
          rw [hmod]
          unfold EratBig.sieveBytes at hmlt ⊢
          exact Nat.and_pow_two_sub_one_of_lt_two_pow hmlt
        have hw0 : s.weight0 = chainWeight s.sieveBytes (head :: rest) := by
          unfold EratBig.weight0
          rw [h0] at hch
          rw [hch]
        rw [chainWeight_append_triple, hmask, hw0]
      · rw [if_neg h0]
        omega
    rcases store_cases s p mI w head rest hch with ⟨hfull, heq⟩ | ⟨hfull, heq⟩
    · rw [heq]
      exact hmain _ rfl rfl
    · rw [heq]
      have ht := hmain { s with lists := (s.lists.set (mI >>> s.log2SieveSize)
          ((head ++ [⟨p, mI &&& s.moduloSieveSize, w⟩]) :: rest)) } rfl rfl
      -- the pushed state differs only by a leading empty bucket on the same list
      have hpw : (EratBig.pushBucket { s with lists := (s.lists.set (mI >>> s.log2SieveSize)
          ((head ++ [⟨p, mI &&& s.moduloSieveSize, w⟩]) :: rest)) }
            (mI >>> s.log2SieveSize)).weight0
          = if (mI >>> s.log2SieveSize) = 0 then
              chainWeight s.sieveBytes ((([] : Bucket)) ::
                (head ++ [⟨p, mI &&& s.moduloSieveSize, w⟩]) :: rest)
            else s.weight0 := by
        refine weight0_of_set s _ (mI >>> s.log2SieveSize)
          ((([] : Bucket)) :: (head ++ [⟨p, mI &&& s.moduloSieveSize, w⟩]) :: rest)
          (pushBucket_log2 { s with lists := (s.lists.set (mI >>> s.log2SieveSize)
            ((head ++ [⟨p, mI &&& s.moduloSieveSize, w⟩]) :: rest)) }
            (mI >>> s.log2SieveSize)) ?_ hlen
        rw [pushBucket_lists]
        dsimp only
        rw [getD_set_self _ _ _ _ hseg, List.set_set]
      rw [hpw]
      by_cases h0 : mI >>> s.log2SieveSize = 0
      · rw [if_pos h0, chainWeight_cons_empty]
        rw [weight0_of_set s { s with lists := (s.lists.set (mI >>> s.log2SieveSize)
              ((head ++ [⟨p, mI &&& s.moduloSieveSize, w⟩]) :: rest)) }
            (mI >>> s.log2SieveSize)
            ((head ++ [⟨p, mI &&& s.moduloSieveSize, w⟩]) :: rest) rfl rfl hlen,
          if_pos h0] at ht
        exact ht
      · rw [if_neg h0]
        omega

theorem stepPrime_weight0 (W : Wheel) (hW : ∀ i, 1 ≤ W.factor i)
    (p : EratBig × List Nat) (wp : WheelPrime) (h : p.1.Inv)
    (hm : wp.multipleIndex < p.1.sieveBytes) (hp : 1 ≤ wp.sievingPrime) :
    ((EratBig.stepPrime W p wp).1).weight0
      ≤ p.1.weight0 + (p.1.sieveBytes - wp.multipleIndex - 1) := by
  have hinc : wp.multipleIndex + 1
      ≤ wp.multipleIndex + wp.sievingPrime * W.factor wp.wheelIndex
          + W.correct wp.wheelIndex := by
    have h1 : 1 * 1 ≤ wp.sievingPrime * W.factor wp.wheelIndex :=
      Nat.mul_le_mul hp (hW wp.wheelIndex)
    omega
  have hb := store_weight0_le p.1 wp.sievingPrime
    (wp.multipleIndex + wp.sievingPrime * W.factor wp.wheelIndex + W.correct wp.wheelIndex)
    (W.next wp.wheelIndex) h
  show (p.1.storeSievingPrime wp.sievingPrime
      (wp.multipleIndex + wp.sievingPrime * W.factor wp.wheelIndex + W.correct wp.wheelIndex)
      (W.next wp.wheelIndex)).weight0 ≤ _
  omega

theorem foldl_stepPrime_weight (W : Wheel) (hW : ∀ i, 1 ≤ W.factor i) :
    ∀ (b : Bucket) (p : EratBig × List Nat), p.1.Inv →
      (∀ wp ∈ b, wp.multipleIndex < p.1.sieveBytes ∧ 1 ≤ wp.sievingPrime) →
      ((b.foldl (EratBig.stepPrime W) p).1).weight0
        ≤ p.1.weight0 + bucketSlack p.1.sieveBytes b := by
  intro b
  induction b with
  | nil =>
    intro p h _
    simp [bucketSlack]
  | cons wp b ih =>
    intro p h hq
    simp only [List.foldl]
    have hwp := hq wp (List.mem_cons_self _ _)
    have h1 := stepPrime_weight0 W hW p wp h hwp.1 hwp.2
    have hInv1 : ((EratBig.stepPrime W p wp).1).Inv := store_inv _ _ _ _ hwp.2 h
    have hsb1 : ((EratBig.stepPrime W p wp).1).sieveBytes = p.1.sieveBytes :=
      store_sieveBytes _ _ _ _
    have h2 := ih (EratBig.stepPrime W p wp) hInv1 ?_
    · rw [hsb1] at h2
      have hexp : bucketSlack p.1.sieveBytes (wp :: b)
          = (p.1.sieveBytes - wp.multipleIndex - 1) + bucketSlack p.1.sieveBytes b := by
        simp [bucketSlack]
      omega
    · intro x hx
      rw [hsb1]
      exact hq x (List.mem_cons_of_mem _ hx)

theorem chainSlack_cons (S : Nat) (b : Bucket) (c : List Bucket) :
    chainSlack S (b :: c) = bucketSlack S b + chainSlack S c := by
  unfold chainSlack bucketSlack
  simp

theorem processChain_weight (W : Wheel) (hW : ∀ i, 1 ≤ W.factor i) :
    ∀ (c : List Bucket) (p : EratBig × List Nat), p.1.Inv →
      (∀ b ∈ c, ∀ wp ∈ b, wp.multipleIndex < p.1.sieveBytes ∧ 1 ≤ wp.sievingPrime) →
      ((EratBig.processChain W c p).1).weight0
        ≤ p.1.weight0 + chainSlack p.1.sieveBytes c := by
  intro c
  induction c with
  | nil =>
    intro p h _
    simp [chainSlack, EratBig.processChain]
  | cons b c ih =>
    intro p h hq
    have hb := hq b (List.mem_cons_self _ _)
    have h1 : ((EratBig.crossOffBucket W b p).1).weight0
        ≤ p.1.weight0 + bucketSlack p.1.sieveBytes b := by
      rw [crossOffBucket_eq_foldl]
      exact foldl_stepPrime_weight W hW b p h hb
    have hInv1 : ((EratBig.crossOffBucket W b p).1).Inv :=
      crossOffBucket_inv W b p h (fun wp hwp => (hb wp hwp).2)
    have hsb1 : ((EratBig.crossOffBucket W b p).1).sieveBytes = p.1.sieveBytes := by
      unfold EratBig.sieveBytes
      rw [crossOffBucket_log2]
    show (EratBig.processChain W c
        (bumpStock (EratBig.crossOffBucket W b p).1, (EratBig.crossOffBucket W b p).2)).1.weight0
      ≤ p.1.weight0 + chainSlack p.1.sieveBytes (b :: c)
    have h2 := ih (bumpStock (EratBig.crossOffBucket W b p).1, (EratBig.crossOffBucket W b p).2)
      hInv1 ?_
    · have hw' : (bumpStock (EratBig.crossOffBucket W b p).1).weight0
          = ((EratBig.crossOffBucket W b p).1).weight0 := rfl
      have hsb' : (bumpStock (EratBig.crossOffBucket W b p).1).sieveBytes
          = p.1.sieveBytes := hsb1
      rw [chainSlack_cons]
      rw [hw', hsb'] at h2
      omega
    · intro x hx
      have hsb2 : (bumpStock (EratBig.crossOffBucket W b p).1).sieveBytes
          = p.1.sieveBytes := hsb1
      rw [hsb2]
      exact hq x (List.mem_cons_of_mem _ hx)

theorem detachPush_inv (s : EratBig) (h : s.Inv) : (detachPush s).Inv :=
  detach_push_inv s h

theorem detachPush_sieveBytes (s : EratBig) : (detachPush s).sieveBytes = s.sieveBytes := by
  unfold EratBig.sieveBytes detachPush
  rw [pushBucket_log2]

theorem detachPush_weight0 (s : EratBig) (hlen : 0 < s.lists.length) :
    (detachPush s).weight0 = 0 := by
  have hw := weight0_of_set s (detachPush s) 0 [([] : Bucket)]
    (by unfold detachPush; rw [pushBucket_log2]) (detach_push_lists s hlen) hlen
  rw [hw, if_pos rfl]
  simp [chainWeight]

theorem sum_slack_le (S : Nat) :
    ∀ l : List WheelPrime,
      (l.map (fun wp => S - wp.multipleIndex - 1)).sum
        ≤ (l.map (fun wp => S - wp.multipleIndex)).sum := by
  intro l
  induction l with
  | nil => simp
  | cons wp l ih =>
    simp only [List.map, List.sum_cons]
    omega

theorem chainSlack_lt_chainWeight (S : Nat) (c : List Bucket)
    (hne : c.flatten ≠ [])
    (hm : ∀ wp ∈ c.flatten, wp.multipleIndex < S) :
    chainSlack S c < chainWeight S c := by
  unfold chainSlack chainWeight
  rcases hfl : c.flatten with _ | ⟨wp, l⟩
  · exact absurd hfl hne
  · simp only [List.map, List.sum_cons]
    have h1 := sum_slack_le S l
    have h2 : wp.multipleIndex < S := hm wp (by rw [hfl]; exact List.mem_cons_self _ _)
    have h3 : ∀ x ∈ l, x ∈ c.flatten := by
      intro x hx
      rw [hfl]
      exact List.mem_cons_of_mem _ hx
    omega

theorem flatten_ne_of_not_done (s : EratBig) (h : s.Inv)
    (hnd : chainDone (s.lists.getD 0 []) = false) :
    (s.lists.getD 0 []).flatten ≠ [] := by
  obtain ⟨_, hlen, hnn, hrest, _⟩ := h
  have hmem : s.lists.getD 0 [] ∈ s.lists := getD_mem _ _ _ hlen
  intro hfl
  rw [List.flatten_eq_nil_iff] at hfl
  rcases hc : s.lists.getD 0 [] with _ | ⟨b, rest⟩
  · exact hnn _ hmem hc
  · rcases rest with _ | ⟨b2, rest2⟩
    · have hb : b = [] := hfl b (by rw [hc]; exact List.mem_cons_self _ _)
      rw [hc, hb] at hnd
      simp [chainDone] at hnd
    · have hb2 : b2 ≠ [] := hrest _ hmem b2 (by rw [hc]; exact List.mem_cons_self _ _)
      exact hb2 (hfl b2 (by rw [hc]; exact List.mem_cons_of_mem _ (List.mem_cons_self _ _)))

theorem weight0_zero_done (s : EratBig) (h : s.Inv) (hw : s.weight0 = 0) :
    chainDone (s.lists.getD 0 []) = true := by
  rcases hd : chainDone (s.lists.getD 0 []) with _ | _
  · exfalso
    have hne := flatten_ne_of_not_done s h hd
    rcases List.exists_mem_of_ne_nil _ hne with ⟨wp, hwp⟩
    obtain ⟨_, hlen, _, _, htrip⟩ := h
    rcases List.mem_flatten.mp hwp with ⟨b, hb, hwpb⟩
    have hm : wp.multipleIndex < s.sieveBytes :=
      (htrip _ (getD_mem _ _ _ hlen) b hb wp hwpb).1
    have hmemmap : s.sieveBytes - wp.multipleIndex
        ∈ ((s.lists.getD 0 []).flatten.map (fun x => s.sieveBytes - x.multipleIndex)) :=
      List.mem_map_of_mem _ hwp
    have hle := List.single_le_sum (fun x hx => Nat.zero_le x) _ hmemmap
    unfold EratBig.weight0 chainWeight at hw
    omega
  · rfl

theorem loop_body_facts (W : Wheel) (hW : ∀ i, 1 ≤ W.factor i) (p : EratBig × List Nat)
    (h : p.1.Inv) (hnd : chainDone (p.1.lists.getD 0 []) = false) :
    ((EratBig.processChain W (p.1.lists.getD 0 []) (detachPush p.1, p.2)).1).Inv
    ∧ ((EratBig.processChain W (p.1.lists.getD 0 []) (detachPush p.1, p.2)).1).weight0 + 1
        ≤ p.1.weight0 := by
  have hlen : 0 < p.1.lists.length := h.2.1
  have hmem : p.1.lists.getD 0 [] ∈ p.1.lists := getD_mem _ _ _ hlen
  have hchainP : ∀ b ∈ p.1.lists.getD 0 [], ∀ wp ∈ b,
      wp.multipleIndex < p.1.sieveBytes ∧ 1 ≤ wp.sievingPrime :=
    fun b hb wp hwp => h.2.2.2.2 _ hmem b hb wp hwp
  refine ⟨processChain_inv W _ _ (detachPush_inv p.1 h)
    (fun b hb wp hwp => (hchainP b hb wp hwp).2), ?_⟩
  have hpw := processChain_weight W hW (p.1.lists.getD 0 []) (detachPush p.1, p.2)
    (detachPush_inv p.1 h) ?_
  · dsimp only at hpw
    rw [detachPush_weight0 p.1 hlen, detachPush_sieveBytes] at hpw
    have hlt : chainSlack p.1.sieveBytes (p.1.lists.getD 0 [])
        < chainWeight p.1.sieveBytes (p.1.lists.getD 0 []) := by
      refine chainSlack_lt_chainWeight _ _ (flatten_ne_of_not_done p.1 h hnd) ?_
      intro wp hwp
      rcases List.mem_flatten.mp hwp with ⟨b, hb, hwpb⟩
      exact (hchainP b hb wp hwpb).1
    have hweq : p.1.weight0 = chainWeight p.1.sieveBytes (p.1.lists.getD 0 []) := rfl
    omega
  · dsimp only
    rw [detachPush_sieveBytes]
    exact hchainP

theorem crossOffLoop_drains (W : Wheel) (hW : ∀ i, 1 ≤ W.factor i) :
    ∀ (fuel : Nat) (p : EratBig × List Nat), p.1.Inv → p.1.weight0 ≤ fuel →
      chainDone (((EratBig.crossOffLoop W fuel p).1).lists.getD 0 []) = true
      ∧ ((EratBig.crossOffLoop W fuel p).1).Inv := by
  intro fuel
  induction fuel with
  | zero =>
    intro p h hw
    exact ⟨weight0_zero_done p.1 h (Nat.le_zero.mp hw), h⟩
  | succ n ih =>
    intro p h hw
    simp only [EratBig.crossOffLoop]
    split
    · next hdone => exact ⟨hdone, h⟩
    · next hnd =>
      have hnd' : chainDone (p.1.lists.getD 0 []) = false := by
        rcases hb : chainDone (p.1.lists.getD 0 []) with _ | _
        · rfl
        · exact absurd hb hnd
      have hbf := loop_body_facts W hW p h hnd'
      show chainDone (((EratBig.crossOffLoop W n
            (EratBig.processChain W (p.1.lists.getD 0 []) (detachPush p.1, p.2))).1).lists.getD 0 [])
          = true
        ∧ ((EratBig.crossOffLoop W n
            (EratBig.processChain W (p.1.lists.getD 0 []) (detachPush p.1, p.2))).1).Inv
      refine ih _ hbf.1 ?_
      have := hbf.2
      omega

theorem loop_done_id (W : Wheel) (fuel : Nat) (p : EratBig × List Nat)
    (h : chainDone (p.1.lists.getD 0 []) = true) :
    EratBig.crossOffLoop W fuel p = p := by
  cases fuel with
  | zero => rfl
  | succ n =>
    simp only [EratBig.crossOffLoop]
    rw [if_pos h]

theorem crossOffLoop_stable (W : Wheel) (hW : ∀ i, 1 ≤ W.factor i) :
    ∀ (f1 f2 : Nat) (p : EratBig × List Nat), p.1.Inv →
      p.1.weight0 ≤ f1 → p.1.weight0 ≤ f2 →
      EratBig.crossOffLoop W f1 p = EratBig.crossOffLoop W f2 p := by
  intro f1
  induction f1 with
  | zero =>
    intro f2 p h hw1 hw2
    have hd := weight0_zero_done p.1 h (Nat.le_zero.mp hw1)
    rw [loop_done_id W 0 p hd, loop_done_id W f2 p hd]
  | succ n ih =>
    intro f2 p h hw1 hw2
    rcases hd : chainDone (p.1.lists.getD 0 []) with _ | _
    · have hw0 : 0 < p.1.weight0 := by
        rcases Nat.eq_zero_or_pos p.1.weight0 with h0 | h0
        · rw [weight0_zero_done p.1 h h0] at hd
          simp at hd
        · exact h0
      rcases f2 with _ | f2
      · omega
      · have hbf := loop_body_facts W hW p h hd
        simp only [EratBig.crossOffLoop, hd, Bool.false_eq_true, if_false]
        show EratBig.crossOffLoop W n
            (EratBig.processChain W (p.1.lists.getD 0 []) (detachPush p.1, p.2))
          = EratBig.crossOffLoop W f2
            (EratBig.processChain W (p.1.lists.getD 0 []) (detachPush p.1, p.2))
        refine ih f2 _ hbf.1 ?_ ?_
        · have := hbf.2
          omega
        · have := hbf.2
          omega
    · rw [loop_done_id W (n + 1) p hd, loop_done_id W f2 p hd]

/-- Claim C10: the outer while loop of `EratBig::crossOff` terminates for
every state satisfying the engine invariant: each wheel step's increment
`sievingPrime * factor + correct` is positive (first conjunct), so the total
byte distance of the triples of `lists_[0]` to the end of the segment —
`weight0` — strictly decreases each iteration; after at most `weight0`
iterations `lists_[0]` is reduced to a single empty bucket and additional
fuel does not change the result (the loop exits). -/
theorem crossOff_loop_terminates (W : Wheel) (s : EratBig) (sieve : List Nat)
    (hW : ∀ i, 1 ≤ W.factor i) (hInv : s.Inv) :
    (∀ i q, 1 ≤ q → 1 ≤ q * W.factor i + W.correct i)
    ∧ (∀ fuel, s.weight0 ≤ fuel →
        EratBig.crossOffLoop W fuel (s, sieve)
            = EratBig.crossOffLoop W s.weight0 (s, sieve)
        ∧ chainDone (((EratBig.crossOffLoop W fuel (s, sieve)).1).lists.getD 0 [])
            = true) := by
  constructor
  · intro i q hq
    have h1 : 1 * 1 ≤ q * W.factor i := Nat.mul_le_mul hq (hW i)
    omega
  · intro fuel hfuel
    exact ⟨crossOffLoop_stable W hW fuel s.weight0 (s, sieve) hInv hfuel (Nat.le_refl _),
      (crossOffLoop_drains W hW fuel (s, sieve) hInv hfuel).1⟩

/-- Concrete instantiation of claim C10: a one-list engine with an empty
bucket and a constant wheel of stride factor 2. -/
theorem crossOff_loop_terminates_witness :
    (⟨2, 3, [[[]]], 0, 0⟩ : EratBig).Inv
    ∧ (⟨2, 3, [[[]]], 0, 0⟩ : EratBig).weight0 ≤ 5
    ∧ (EratBig.crossOffLoop ⟨fun _ => 1, fun _ => 2, fun _ => 0, fun _ => 0⟩ 5
          ((⟨2, 3, [[[]]], 0, 0⟩ : EratBig), [255])
        = EratBig.crossOffLoop ⟨fun _ => 1, fun _ => 2, fun _ => 0, fun _ => 0⟩
          ((⟨2, 3, [[[]]], 0, 0⟩ : EratBig)).weight0
          ((⟨2, 3, [[[]]], 0, 0⟩ : EratBig), [255]))
    ∧ chainDone (((EratBig.crossOffLoop ⟨fun _ => 1, fun _ => 2, fun _ => 0, fun _ => 0⟩ 5
          ((⟨2, 3, [[[]]], 0, 0⟩ : EratBig), [255])).1).lists.getD 0 []) = true := by
  have hInv : (⟨2, 3, [[[]]], 0, 0⟩ : EratBig).Inv := by
    unfold EratBig.Inv EratBig.sieveBytes
    refine ⟨by norm_num, by norm_num, ?_, ?_, ?_⟩ <;> decide
  have h := crossOff_loop_terminates ⟨fun _ => 1, fun _ => 2, fun _ => 0, fun _ => 0⟩
    ⟨2, 3, [[[]]], 0, 0⟩ [255] (fun i => by norm_num) hInv
  have h2 := h.2 5 (by decide)
  exact ⟨hInv, by decide, h2.1, h2.2⟩

/-- Claim C2: during `EratBig::crossOff(sieve)` every triple of every bucket
processed from `lists_[0]` receives exactly one wheel step, in order: the
unrolled bucket loop equals the fold that, per triple `(p, m, w)`, clears
the sieve bit via `unsetBit` and re-stores the advanced triple
`(p, m + p*factor(w) + correct(w), next(w))` through `storeSievingPrime`
(which routes it to `lists_[m' >> L]` at offset `m' & (S-1)`); and, given
the invariant, the outer loop drains `lists_[0]` to a single empty bucket
(every triple routed back into `lists_[0]` is processed too) before the
rotation step runs. -/
theorem crossOff_one_wheel_step_each (W : Wheel) (s : EratBig) (sieve : List Nat)
    (fuel : Nat) (hW : ∀ i, 1 ≤ W.factor i) (hInv : s.Inv)
    (hfuel : s.weight0 ≤ fuel) :
    (∀ (p : EratBig × List Nat) (wp : WheelPrime),
        EratBig.stepPrime W p wp
          = (p.1.storeSievingPrime wp.sievingPrime
              (wp.multipleIndex + wp.sievingPrime * W.factor wp.wheelIndex
                + W.correct wp.wheelIndex)
              (W.next wp.wheelIndex),
             (unsetBit W p.2 wp.sievingPrime wp.multipleIndex wp.wheelIndex).1))
    ∧ (∀ (b : Bucket) (p : EratBig × List Nat),
        EratBig.crossOffBucket W b p = b.foldl (EratBig.stepPrime W) p)
    ∧ chainDone (((EratBig.crossOffLoop W fuel (s, sieve)).1).lists.getD 0 [])
        = true :=
  ⟨fun _ _ => rfl, crossOffBucket_eq_foldl W,
    (crossOffLoop_drains W hW fuel (s, sieve) hInv hfuel).1⟩

/-- Concrete instantiation of claim C2 at the one-list engine. -/
theorem crossOff_one_wheel_step_each_witness :
    (⟨2, 3, [[[]]], 0, 0⟩ : EratBig).Inv
    ∧ (⟨2, 3, [[[]]], 0, 0⟩ : EratBig).weight0 ≤ 4
    ∧ chainDone (((EratBig.crossOffLoop ⟨fun _ => 1, fun _ => 2, fun _ => 0, fun _ => 0⟩ 4
          ((⟨2, 3, [[[]]], 0, 0⟩ : EratBig), [255])).1).lists.getD 0 []) = true := by
  have hInv : (⟨2, 3, [[[]]], 0, 0⟩ : EratBig).Inv := by
    unfold EratBig.Inv EratBig.sieveBytes
    refine ⟨by norm_num, by norm_num, ?_, ?_, ?_⟩ <;> decide
  refine ⟨hInv, by decide, ?_⟩
  exact (crossOff_one_wheel_step_each ⟨fun _ => 1, fun _ => 2, fun _ => 0, fun _ => 0⟩
    ⟨2, 3, [[[]]], 0, 0⟩ [255] 4 (fun i => by norm_num) hInv (by decide)).2.2

theorem getD_drop_one {α : Type} (l : List α) (i : Nat) (d : α) :
    (l.drop 1).getD i d = l.getD (i + 1) d := by
  rcases l with _ | ⟨a, l⟩ <;> simp

/-- Claim C3: after `EratBig::crossOff(sieve)` the array `lists_` has been
rotated left by one position relative to the drained state reached by the
outer loop: `lists_` becomes `drop 1 ++ [old head slot]`, the length is
unchanged, for every `i` with `i+1 < size` the new `lists_[i]` is the
drained `lists_[i+1]`, and the tail slot holds the drained `lists_[0]` —
a valid single empty bucket, not a stale pointer (`tmp` is read from
`lists_[0]` after the loop, at which point it points to the empty bucket
pushed by the final `pushBucket(0)`). -/
theorem crossOff_rotates_left (W : Wheel) (s : EratBig) (sieve : List Nat)
    (fuel : Nat) (hW : ∀ i, 1 ≤ W.factor i) (hInv : s.Inv)
    (hfuel : s.weight0 ≤ fuel) :
    (EratBig.crossOff W fuel s sieve).1.lists
        = ((EratBig.crossOffLoop W fuel (s, sieve)).1).lists.drop 1
          ++ [((EratBig.crossOffLoop W fuel (s, sieve)).1).lists.getD 0 []]
    ∧ (EratBig.crossOff W fuel s sieve).1.lists.length = s.lists.length
    ∧ (∀ i, i + 1 < ((EratBig.crossOffLoop W fuel (s, sieve)).1).lists.length →
        (EratBig.crossOff W fuel s sieve).1.lists.getD i []
          = ((EratBig.crossOffLoop W fuel (s, sieve)).1).lists.getD (i + 1) [])
    ∧ (EratBig.crossOff W fuel s sieve).1.lists.getD
          ((EratBig.crossOff W fuel s sieve).1.lists.length - 1) [] = [([] : Bucket)] := by
  have hlen0 : 0 < s.lists.length := hInv.2.1
  have hlenq : ((EratBig.crossOffLoop W fuel (s, sieve)).1).lists.length = s.lists.length :=
    crossOffLoop_length W fuel (s, sieve)
  have hdone := (crossOffLoop_drains W hW fuel (s, sieve) hInv hfuel).1
  have hq0 : ((EratBig.crossOffLoop W fuel (s, sieve)).1).lists.getD 0 [] = [([] : Bucket)] :=
    (chainDone_iff _).mp hdone
  have hrot : (EratBig.crossOff W fuel s sieve).1.lists
      = ((EratBig.crossOffLoop W fuel (s, sieve)).1).lists.drop 1
        ++ [((EratBig.crossOffLoop W fuel (s, sieve)).1).lists.getD 0 []] := rfl
  have hlenr : (EratBig.crossOff W fuel s sieve).1.lists.length = s.lists.length := by
    rw [hrot]
    simp
    omega
  refine ⟨hrot, hlenr, ?_, ?_⟩
  · intro i hi
    rw [hrot]
    rw [getD_append_left _ _ _ _ (by simp; omega)]
    exact getD_drop_one _ _ _
  · rw [hrot, hq0]
    have hidx : ((((EratBig.crossOffLoop W fuel (s, sieve)).1).lists.drop 1)
          ++ [[([] : Bucket)]]).length - 1
        = (((EratBig.crossOffLoop W fuel (s, sieve)).1).lists.drop 1).length := by
      simp
    rw [hidx]
    exact getD_append_length _ _ _

/-- Concrete instantiation of claim C3 at the one-list engine: the tail slot
after rotation holds a valid single empty bucket. -/
theorem crossOff_rotates_left_witness :
    (⟨2, 3, [[[]]], 0, 0⟩ : EratBig).Inv
    ∧ (⟨2, 3, [[[]]], 0, 0⟩ : EratBig).weight0 ≤ 4
    ∧ (EratBig.crossOff ⟨fun _ => 1, fun _ => 2, fun _ => 0, fun _ => 0⟩ 4
          (⟨2, 3, [[[]]], 0, 0⟩ : EratBig) [255]).1.lists.getD
        ((EratBig.crossOff ⟨fun _ => 1, fun _ => 2, fun _ => 0, fun _ => 0⟩ 4
          (⟨2, 3, [[[]]], 0, 0⟩ : EratBig) [255]).1.lists.length - 1) [] = [([] : Bucket)] := by
  have hInv : (⟨2, 3, [[[]]], 0, 0⟩ : EratBig).Inv := by
    unfold EratBig.Inv EratBig.sieveBytes
    refine ⟨by norm_num, by norm_num, ?_, ?_, ?_⟩ <;> decide
  refine ⟨hInv, by decide, ?_⟩
  exact (crossOff_rotates_left ⟨fun _ => 1, fun _ => 2, fun _ => 0, fun _ => 0⟩
    ⟨2, 3, [[[]]], 0, 0⟩ [255] 4 (fun i => by norm_num) hInv (by decide)).2.2.2
